import Mathlib

/-!
Shallow embedding of the `vtools` Go utility package and proofs about it.

Go slices become Lean `List`s, Go strings become `List Char` (the code
iterates bytes; all separators involved are ASCII), machine integers become
`Int` with Go's truncated division/remainder (`Int.tdiv` / `Int.tmod`) and,
where the code performs arithmetic that can overflow (the `Range` loop's
`low += step`), with Go's wrapping two's-complement 64-bit addition
(`wrap64`); a function that can panic returns an `Option` (`none` models
the panic).
File contents are passed in explicitly as values, since the I/O layer only
threads bytes through.
-/

namespace vtools

/-! ## Stack (src/stack.go)

`type Stack[T any] []T`; the top of the stack is the tail of the slice. -/

abbrev Stack (T : Type) : Type := List T

/-- `Push` appends its arguments (left to right) to the top: `*s = append(*s, t...)`. -/
def Stack.Push {T : Type} (s : Stack T) (ts : List T) : Stack T :=
  s ++ ts

/-- `Pop` panics (`none`) on an empty stack, otherwise returns `(*s)[len(*s)-1]`
and the stack shrunk by one: `*s = (*s)[:len(*s)-1]`. -/
def Stack.Pop {T : Type} (s : Stack T) : Option (T × Stack T) :=
  match s.getLast? with
  | none => none
  | some t => some (t, s.dropLast)

/-- Popping repeatedly until the stack is empty (fuel bounds the iteration;
each successful `Pop` shrinks the stack, so fuel `= length` drains it). -/
def drainStack {T : Type} (fuel : Nat) (s : Stack T) : List T :=
  match fuel with
  | 0 => []
  | fuel + 1 =>
    match Stack.Pop s with
    | none => []
    | some (t, rest) => t :: drainStack fuel rest

/-! ## Queue (src/queue.go)

`type Queue[T any] []T`; the front of the queue is the head of the slice. -/

abbrev Queue (T : Type) : Type := List T

/-- `Push` appends its arguments (left to right) to the back: `*q = append(*q, items...)`. -/
def Queue.Push {T : Type} (q : Queue T) (items : List T) : Queue T :=
  q ++ items

/-- `Pop` panics (`none`) on an empty queue, otherwise returns `(*q)[0]`
and the queue advanced by one: `*q = (*q)[1:]`. -/
def Queue.Pop {T : Type} (q : Queue T) : Option (T × Queue T) :=
  match q with
  | [] => none
  | v :: rest => some (v, rest)

/-- Popping repeatedly until the queue is empty (fuel bounds the iteration). -/
def drainQueue {T : Type} (fuel : Nat) (q : Queue T) : List T :=
  match fuel with
  | 0 => []
  | fuel + 1 =>
    match Queue.Pop q with
    | none => []
    | some (v, rest) => v :: drainQueue fuel rest

/-! ## Numeric helpers (src/math.go)

Go's `%` on integers is truncated remainder (`Int.tmod`), and `/` is
truncated division (`Int.tdiv`). -/

theorem natAbs_tmod (a b : Int) : (a.tmod b).natAbs = a.natAbs % b.natAbs := by
  cases a with
  | ofNat m =>
    cases b with
    | ofNat n => rfl
    | negSucc n => rfl
  | negSucc m =>
    cases b with
    | ofNat n =>
      show (-(Int.ofNat ((m + 1) % n))).natAbs = (m + 1) % n
      rw [Int.natAbs_neg]
      rfl
    | negSucc n =>
      show (-(Int.ofNat ((m + 1) % (n + 1)))).natAbs = (m + 1) % (n + 1)
      rw [Int.natAbs_neg]
      rfl

/-- The Euclidean loop of `GCD`: `for b != 0 { a, b = b, a%b }`. -/
def gcdLoop (a b : Int) : Int :=
  if h : b = 0 then a
  else gcdLoop b (a.tmod b)
termination_by b.natAbs
decreasing_by
  rw [natAbs_tmod]
  exact Nat.mod_lt _ (Int.natAbs_pos.mpr h)

/-- `GCD(a, b)`: swaps so that the larger value comes first, then runs the
Euclidean loop. -/
def GCD (a b : Int) : Int :=
  if a < b then gcdLoop b a else gcdLoop a b

/-- `GCDAll(nums...)`: panics (`none`) on an empty argument list, otherwise
folds `gcd = GCD(v, gcd)` over `nums[1:]` starting from `nums[0]`. -/
def GCDAll (nums : List Int) : Option Int :=
  match nums with
  | [] => none
  | n :: rest => some (rest.foldl (fun gcd v => GCD v gcd) n)

/-- `LCM(a, b)`: `0` when both are `0`, otherwise `a * (b / GCD(a, b))`
with Go's truncated division. -/
def LCM (a b : Int) : Int :=
  if a = 0 ∧ b = 0 then 0
  else a * (b.tdiv (GCD a b))

/-- `LCMAll(nums...)`: panics (`none`) on an empty argument list, otherwise
folds `lcm = LCM(v, lcm)` over `nums[1:]` starting from `nums[0]`. -/
def LCMAll (nums : List Int) : Option Int :=
  match nums with
  | [] => none
  | n :: rest => some (rest.foldl (fun lcm v => LCM v lcm) n)

/-! ## Range (src/vtools.go)

`Range(vs...)` panics unless 2 or 3 arguments are given; the returned
iterator yields `low` and advances by `step` while `low < high`. Go's `int`
is a 64-bit two's-complement integer whose addition wraps on overflow, so
`low += step` is wrapping addition at the int64 boundary. The loop is
embedded with explicit fuel: `rangeLoop low high step fuel` is the list of
elements yielded in the first `fuel` iterations — the loop itself need not
terminate, and the theorems below say when it does. -/

/-- Reduction of an integer into the int64 range `[-2^63, 2^63)`; Go's `+`
on `int` is plain addition followed by this reduction. -/
def wrap64 (x : Int) : Int :=
  (x + 2 ^ 63) % 2 ^ 64 - 2 ^ 63

def rangeLoop (low high step : Int) (fuel : Nat) : List Int :=
  match fuel with
  | 0 => []
  | fuel + 1 =>
    if low < high then low :: rangeLoop (wrap64 (low + step)) high step fuel
    else []

/-- Argument validation and defaulting of `Range`: panic (`none`) on fewer
than 2 or more than 3 arguments, otherwise `low = vs[0]`, `high = vs[1]`,
and `step = vs[2]` defaulting to `1`. -/
def rangeArgs (vs : List Int) : Option (Int × Int × Int) :=
  match vs with
  | [low, high] => some (low, high, 1)
  | [low, high, step] => some (low, high, step)
  | _ => none

/-- `Range(vs...)`, its loop run for `fuel` iterations. -/
def Range (vs : List Int) (fuel : Nat) : Option (List Int) :=
  match rangeArgs vs with
  | none => none
  | some (low, high, step) => some (rangeLoop low high step fuel)

/-- `max 0 (ceil ((high - low) / step))`, written with Euclidean division:
for positive `step`, `ceil (x / step) = (x + step - 1) / step`. -/
def rangeCount (low high step : Int) : Nat :=
  (max 0 ((high - low + step - 1) / step)).toNat

/-- The arithmetic progression `low, low + step, ...` with `rangeCount`
elements. -/
def rangeList (low high step : Int) : List Int :=
  (List.range (rangeCount low high step)).map (fun i : Nat => low + (i : Int) * step)

/-! ## SplitWS (src/unnamed/part_001)

`SplitWS` walks the bytes of `s` (chars here; the separators are ASCII),
buffering non-separator bytes and flushing the buffer into `parts` when a
space, tab or newline is met; the loop's final result is `parts` — the
buffer is not flushed after the loop. -/

def splitWSLoop (s : List Char) (buf : List Char) (parts : List (List Char)) :
    List (List Char) :=
  match s with
  | [] => parts
  | char :: rest =>
    if char = ' ' ∨ char = '\t' ∨ char = '\n' then
      if buf ≠ [] then splitWSLoop rest [] (parts ++ [buf])
      else splitWSLoop rest buf parts
    else splitWSLoop rest (buf ++ [char]) parts

def SplitWS (s : List Char) : List (List Char) :=
  splitWSLoop s [] []

/-! ## ReadLinesBytes (src/io.go)

The reader loop: `ReadBytes('\n')` returns the bytes up to and including the
newline; at end of file the bytes read so far (with no newline) come back
together with `io.EOF`. A chunk is kept when `len(lineBytes) > 1`, with the
trailing newline cut off in the non-EOF case and the EOF chunk kept as is.
`readLB` carries the bytes accumulated toward the current chunk; bytes are
`Nat`, with `10` the newline. -/

def readLB (content : List Nat) (lineBytes : List Nat) : List (List Nat) :=
  match content with
  | [] =>
    if lineBytes.length > 1 then [lineBytes] else []
  | b :: rest =>
    if b = 10 then
      (if (lineBytes ++ [10]).length > 1 then [(lineBytes ++ [10]).dropLast] else [])
        ++ readLB rest []
    else
      readLB rest (lineBytes ++ [b])

/-- `ReadLinesBytes` applied to the byte sequence successfully read. -/
def ReadLinesBytes (content : List Nat) : List (List Nat) :=
  readLB content []

/-! ## Lazy sequences (src/vtools.go)

Go's `iter.Seq[T]` is `func(yield func(T) bool)`: the sequence drives a
consumer and must stop the moment `yield` returns `false`. A sequence is
embedded as a fold over an arbitrary consumer-state type `S`: the consumer
takes its state and an element and returns the new state together with the
continue signal. -/

def Seq (T : Type) : Type 1 :=
  (S : Type) → (S → T → S × Bool) → S → S

/-- The loop `for _, v := range s { if !yield(v) { return } }` backing a
slice-based sequence. -/
def sliceSeqLoop {T S : Type} (yield : S → T → S × Bool) : List T → S → S
  | [], st => st
  | v :: rest, st =>
    let r := yield st v
    if r.2 then sliceSeqLoop yield rest r.1 else r.1

/-- The sequence of the elements of slice `s`. -/
def sliceSeq {T : Type} (s : List T) : Seq T :=
  fun _ yield st => sliceSeqLoop yield s st

/-- `Filter(s, shouldKeep)`: yields only the elements with `shouldKeep`; a
filtered-out element leaves the consumer untouched and continues. -/
def Filter {T : Type} (s : Seq T) (shouldKeep : T → Bool) : Seq T :=
  fun _ yield st =>
    s _ (fun st v => if shouldKeep v then yield st v else (st, true)) st

/-- `Map(s, to)`: yields `to(t)` for each element `t` of `s` (`to` is named
`f` here; `to` is a keyword in Lean). -/
def Map {T E : Type} (s : Seq T) (f : T → E) : Seq E :=
  fun _ yield st => s _ (fun st t => yield st (f t)) st

/-- Materializing a sequence into a slice: the consumer appends each element
and always continues. -/
def collectSeq {T : Type} (s : Seq T) : List T :=
  s (List T) (fun out v => (out ++ [v], true)) []

/-- `FilterSlice(s, shouldKeep)`: the eager loop appending the kept items. -/
def FilterSlice {T : Type} (s : List T) (shouldKeep : T → Bool) : List T :=
  s.foldl (fun out item => if shouldKeep item then out ++ [item] else out) []

/-- `MapSlice(s, to)`: the eager loop appending `to(item)` for every item. -/
def MapSlice {T E : Type} (s : List T) (f : T → E) : List E :=
  s.foldl (fun out item => out ++ [f item]) []

/-! ## MaxIndex (src/vtools.go) -/

/-- The scanning loop of `MaxIndex`: `i` is the index in the original slice
of the head of `s`; only a strictly greater value (`v > maxV`) replaces the
tracked maximum. -/
def maxIndexLoop {T : Type} [LinearOrder T] (s : List T) (maxV : T) (maxI : Nat)
    (i : Nat) : T × Nat :=
  match s with
  | [] => (maxV, maxI)
  | v :: rest =>
    if maxV < v then maxIndexLoop rest v i (i + 1)
    else maxIndexLoop rest maxV maxI (i + 1)

/-- `MaxIndex(s)`: panics (`none`) on an empty slice, otherwise starts from
`s[0]` at index `0` and scans the rest of the slice. -/
def MaxIndex {T : Type} [LinearOrder T] (s : List T) : Option (T × Nat) :=
  match s with
  | [] => none
  | v :: rest => some (maxIndexLoop rest v 0 1)

/-! ## ReadLines (src/io.go)

`ReadLines` opens the file, scans it line by line keeping the non-empty
lines, and reports failures as error values. The environment is explicit:
`openResult` is the outcome of `os.Open`; an opened file is the list of
lines the scanner yields together with the scanner's final error state
(`sc.Err()`). -/

inductive ReadLinesErr : Type
  | openErr (msg : String)
  | readErr (msg : String)

def ReadLines (openResult : Except String (List String × Option String)) :
    Except ReadLinesErr (List String) :=
  match openResult with
  | .error e => .error (.openErr ("os.Open failed: " ++ e))
  | .ok (scanned, scanErr) =>
    let lines := scanned.foldl
      (fun lines line => if line ≠ "" then lines ++ [line] else lines) []
    match scanErr with
    | some e => .error (.readErr ("error reading lines: " ++ e))
    | none => .ok lines

end vtools

namespace vtools

/-! ## Helper lemmas -/

theorem gcdLoop_eq_zero (a : Int) : gcdLoop a 0 = a := by
  rw [gcdLoop.eq_def]
  simp

theorem gcdLoop_eq_step (a b : Int) (h : b ≠ 0) :
    gcdLoop a b = gcdLoop b (a.tmod b) := by
  conv_lhs => rw [gcdLoop.eq_def]
  simp [h]

theorem drainStack_eq_reverse {T : Type} :
    ∀ (fuel : Nat) (s : Stack T), s.length ≤ fuel →
      drainStack fuel s = s.reverse := by
  intro fuel
  induction fuel with
  | zero =>
    intro s hs
    have : s = [] := List.length_eq_zero.mp (Nat.le_zero.mp hs)
    simp [drainStack, this]
  | succ n ih =>
    intro s hs
    cases hlast : s.getLast? with
    | none =>
      have : s = [] := List.getLast?_eq_none_iff.mp hlast
      simp [drainStack, Stack.Pop, hlast, this]
    | some t =>
      have hne : s ≠ [] := by
        intro h
        rw [h] at hlast
        simp at hlast
      have hsplit : s.dropLast ++ [s.getLast hne] = s :=
        List.dropLast_append_getLast hne
      have ht : s.getLast hne = t := by
        have := List.getLast?_eq_getLast s hne
        rw [hlast] at this
        exact (Option.some.injEq _ _).mp this.symm
      have hlen : s.dropLast.length ≤ n := by
        have h1 := List.length_dropLast s
        have hpos : 0 < s.length := List.length_pos.mpr hne
        omega
      have hrec := ih s.dropLast hlen
      simp only [drainStack, Stack.Pop, hlast]
      rw [hrec]
      have hrev : (s.dropLast ++ [t]).reverse = t :: s.dropLast.reverse := by
        simp
      rw [← ht, hsplit] at hrev
      rw [ht] at hrev
      exact hrev.symm

theorem drainQueue_eq_self {T : Type} :
    ∀ (fuel : Nat) (q : Queue T), q.length ≤ fuel →
      drainQueue fuel q = q := by
  intro fuel
  induction fuel with
  | zero =>
    intro q hq
    have : q = [] := List.length_eq_zero.mp (Nat.le_zero.mp hq)
    simp [drainQueue, this]
  | succ n ih =>
    intro q hq
    cases q with
    | nil => simp [drainQueue, Queue.Pop]
    | cons v rest =>
      have hlen : rest.length ≤ n := by simpa using hq
      simp only [drainQueue, Queue.Pop]
      rw [ih rest hlen]

/-! ## Claim theorems -/

/-- Claim C5: pushing all elements of a non-empty collection `c` onto a `Stack`
(in left-to-right order) and popping until empty yields `c` in reverse push
order, and `Pop` on an empty `Stack` panics. -/
theorem stack_push_pop_reverse {T : Type} (c : List T) (hc : c ≠ []) :
    drainStack c.length (Stack.Push ([] : Stack T) c) = c.reverse ∧
      Stack.Pop ([] : Stack T) = none := by
  constructor
  · have hlen : (Stack.Push ([] : Stack T) c).length ≤ c.length := by
      simp [Stack.Push]
    have := drainStack_eq_reverse c.length (Stack.Push ([] : Stack T) c) hlen
    simpa [Stack.Push] using this
  · rfl

/-- Witness for C5 at `c = [1, 2, 3]`. -/
theorem stack_push_pop_reverse_witness :
    drainStack 3 (Stack.Push ([] : Stack Int) [1, 2, 3]) = [3, 2, 1] ∧
      Stack.Pop ([] : Stack Int) = none := by
  have h := stack_push_pop_reverse ([1, 2, 3] : List Int) (by decide)
  simpa using h

/-- Claim C6: pushing all elements of a non-empty collection `c` onto a `Queue`
(in left-to-right order) and popping until empty yields `c` in push order,
and `Pop` on an empty `Queue` panics. -/
theorem queue_push_pop_fifo {T : Type} (c : List T) (hc : c ≠ []) :
    drainQueue c.length (Queue.Push ([] : Queue T) c) = c ∧
      Queue.Pop ([] : Queue T) = none := by
  constructor
  · have hlen : (Queue.Push ([] : Queue T) c).length ≤ c.length := by
      simp [Queue.Push]
    have := drainQueue_eq_self c.length (Queue.Push ([] : Queue T) c) hlen
    simpa [Queue.Push] using this
  · rfl

/-- Witness for C6 at `c = [1, 2, 3]`. -/
theorem queue_push_pop_fifo_witness :
    drainQueue 3 (Queue.Push ([] : Queue Int) [1, 2, 3]) = [1, 2, 3] ∧
      Queue.Pop ([] : Queue Int) = none := by
  have h := queue_push_pop_fifo ([1, 2, 3] : List Int) (by decide)
  simpa using h

/-- Claim C8: `GCD(0,0) = 0` (the Euclidean loop exits at once),
`LCM(0,0) = 0` (explicit special case), `GCD(12,18) = 6`, `LCM(4,6) = 12`,
and `GCDAll` / `LCMAll` panic on an empty argument list. -/
theorem numeric_helpers_values :
    GCD 0 0 = 0 ∧ LCM 0 0 = 0 ∧ GCD 12 18 = 6 ∧ LCM 4 6 = 12 ∧
      GCDAll [] = none ∧ LCMAll [] = none := by
  have t1 : (18 : Int).tmod 12 = 6 := by decide
  have t2 : (12 : Int).tmod 6 = 0 := by decide
  have t3 : (6 : Int).tmod 4 = 2 := by decide
  have t4 : (4 : Int).tmod 2 = 0 := by decide
  have g1218 : GCD 12 18 = 6 := by
    have h1 : GCD 12 18 = gcdLoop 18 12 := by norm_num [GCD]
    rw [h1, gcdLoop_eq_step 18 12 (by norm_num), t1,
      gcdLoop_eq_step 12 6 (by norm_num), t2, gcdLoop_eq_zero]
  have g46 : GCD 4 6 = 2 := by
    have h1 : GCD 4 6 = gcdLoop 6 4 := by norm_num [GCD]
    rw [h1, gcdLoop_eq_step 6 4 (by norm_num), t3,
      gcdLoop_eq_step 4 2 (by norm_num), t4, gcdLoop_eq_zero]
  refine ⟨?_, ?_, g1218, ?_, rfl, rfl⟩
  · simp [GCD, gcdLoop_eq_zero]
  · simp [LCM]
  · rw [LCM]
    norm_num [g46]
    decide

theorem rangeCount_eq_zero (low high step : Int) (hstep : 1 ≤ step)
    (h : high ≤ low) : rangeCount low high step = 0 := by
  unfold rangeCount
  have h1 : high - low + step - 1 ≤ step - 1 := by omega
  have h2 : (high - low + step - 1) / step ≤ (step - 1) / step :=
    Int.ediv_le_ediv (by omega) h1
  have h3 : (step - 1) / step = 0 := Int.ediv_eq_zero_of_lt (by omega) (by omega)
  omega

theorem rangeCount_eq_succ (low high step : Int) (hstep : 1 ≤ step)
    (h : low < high) :
    rangeCount low high step = rangeCount (low + step) high step + 1 := by
  unfold rangeCount
  have e1 : high - low + step - 1 = (high - low - 1) + 1 * step := by ring
  have e2 : high - (low + step) + step - 1 = high - low - 1 := by ring
  rw [e1, e2, Int.add_mul_ediv_right _ _ (by omega : step ≠ 0)]
  have hd : 0 ≤ (high - low - 1) / step := Int.ediv_nonneg (by omega) (by omega)
  omega

theorem rangeList_eq_cons (low high step : Int) (hstep : 1 ≤ step)
    (h : low < high) :
    rangeList low high step = low :: rangeList (low + step) high step := by
  unfold rangeList
  rw [rangeCount_eq_succ low high step hstep h, List.range_succ_eq_map,
    List.map_cons, List.map_map]
  have hf : ((fun i : Nat => low + (i : Int) * step) ∘ Nat.succ)
      = (fun i : Nat => (low + step) + (i : Int) * step) := by
    funext i
    show low + ((i : Nat).succ : Int) * step = (low + step) + (i : Int) * step
    push_cast
    ring
  rw [hf]
  simp

theorem wrap64_eq_self (x : Int) (h1 : -2 ^ 63 ≤ x) (h2 : x < 2 ^ 63) :
    wrap64 x = x := by
  unfold wrap64
  have hmod : (x + 2 ^ 63) % 2 ^ 64 = x + 2 ^ 63 :=
    Int.emod_eq_of_lt (by omega) (by omega)
  omega

theorem rangeLoop_eq_rangeList :
    ∀ (fuel : Nat) (low high step : Int), 1 ≤ step → -2 ^ 63 ≤ low →
      high + step ≤ 2 ^ 63 →
      rangeCount low high step ≤ fuel →
      rangeLoop low high step fuel = rangeList low high step := by
  intro fuel
  induction fuel with
  | zero =>
    intro low high step hstep hlow hhs hc
    have h0 : rangeCount low high step = 0 := Nat.le_zero.mp hc
    simp [rangeLoop, rangeList, h0]
  | succ n ih =>
    intro low high step hstep hlow hhs hc
    by_cases h : low < high
    · have hwrap : wrap64 (low + step) = low + step :=
        wrap64_eq_self _ (by omega) (by omega)
      have hstep' : rangeLoop low high step (n + 1)
          = low :: rangeLoop (low + step) high step n := by
        simp [rangeLoop, h, hwrap]
      rw [hstep', rangeList_eq_cons low high step hstep h]
      have hc' : rangeCount (low + step) high step ≤ n := by
        have := rangeCount_eq_succ low high step hstep h
        omega
      rw [ih (low + step) high step hstep (by omega) hhs hc']
    · have h0 : rangeCount low high step = 0 :=
        rangeCount_eq_zero low high step hstep (by omega)
      simp [rangeLoop, h, rangeList, h0]

theorem rangeLoop_length_nonpos_step :
    ∀ (fuel : Nat) (low high step : Int), step ≤ 0 → low < high →
      low < 2 ^ 63 → -2 ^ 63 ≤ low + (fuel : Int) * step →
      (rangeLoop low high step fuel).length = fuel := by
  intro fuel
  induction fuel with
  | zero => intro low high step _ _ _ _; rfl
  | succ n ih =>
    intro low high step hstep h hlow2 hH
    have h0 : (0 : Int) ≤ (n : Int) := Int.natCast_nonneg n
    have hfs : (n : Int) * step ≤ 0 := by
      have := mul_le_mul_of_nonneg_left hstep h0
      simpa using this
    have hA : -2 ^ 63 ≤ low + step := by
      push_cast at hH
      linarith
    have hH' : -2 ^ 63 ≤ (low + step) + (n : Int) * step := by
      push_cast at hH
      linarith
    have hwrap : wrap64 (low + step) = low + step :=
      wrap64_eq_self _ hA (by omega)
    simp only [rangeLoop, if_pos h, hwrap, List.length_cons]
    rw [ih (low + step) high step hstep (by omega) (by omega) hH']

/-- Counterexample to claim C2 as stated: with a negative step the loop does
not count downward toward `high` — `Range(7, 3, -1)` yields nothing at all
(the loop test `low < high` fails at once), while counting down from `7`
stopping strictly before `3` would yield `[7, 6, 5, 4]`. -/
theorem range_negative_step_counterexample :
    Range [7, 3, -1] 100 = some [] ∧ ([] : List Int) ≠ [7, 6, 5, 4] := by
  exact ⟨rfl, by decide⟩

/-- Claim C2 (amended): `Range` panics exactly when given fewer than 2 or
more than 3 arguments; whenever the parsed step is positive (in particular
for the 2-argument form, where it defaults to `1`) and the wrapping int64
addition cannot overflow before the exit test fires (`low ≥ -2^63` and
`high + step ≤ 2^63`), the loop yields `low, low + step, ...` stopping
strictly before `high`; with any step the loop runs only while `low < high`,
so a negative step yields nothing when `low ≥ high` (it never counts
downward toward `high`). In particular `Range(3,7,2) = [3,5]` and
`Range(0,5) = [0,1,2,3,4]`. -/
theorem range_spec (vs : List Int) (low high step : Int) (fuel : Nat) :
    (rangeArgs vs = none ↔ vs.length < 2 ∨ vs.length > 3) ∧
    (rangeArgs vs = some (low, high, step) → 1 ≤ step → -2 ^ 63 ≤ low →
      high + step ≤ 2 ^ 63 →
      rangeCount low high step ≤ fuel →
      Range vs fuel = some (rangeList low high step)) ∧
    (high ≤ low → rangeLoop low high step fuel = []) ∧
    Range [3, 7, 2] 2 = some [3, 5] ∧
    Range [0, 5] 5 = some [0, 1, 2, 3, 4] := by
  refine ⟨?_, ?_, ?_, rfl, rfl⟩
  · match vs with
    | [] => simp [rangeArgs]
    | [a] => simp [rangeArgs]
    | [a, b] => simp [rangeArgs]
    | [a, b, c] => simp [rangeArgs]
    | a :: b :: c :: d :: rest =>
      refine ⟨fun _ => ?_, fun _ => rfl⟩
      simp only [List.length_cons]
      omega
  · intro hargs hstep hlow hhs hc
    simp [Range, hargs,
      rangeLoop_eq_rangeList fuel low high step hstep hlow hhs hc]
  · intro h
    cases fuel with
    | zero => rfl
    | succ n =>
      have hnl : ¬low < high := by omega
      simp [rangeLoop, hnl]

/-- Witness for C2 at `Range(0, 5)`. -/
theorem range_spec_witness :
    Range [0, 5] 5 = some (rangeList 0 5 1) :=
  (range_spec [0, 5] 0 5 1 5).2.1 rfl (by decide) (by decide) (by decide)
    (by decide)

/-- Counterexample to claim C10 as stated: Go's `int` addition wraps at the
int64 boundary, and there both halves of the claim fail. With
`low = 2^63 - 2`, `high = 2^63 - 1` (the maximum int) and `step = 2` the
claim predicts exactly `rangeCount = 1` element before the loop stops, but
the loop wraps past the odd maximum to `-2^63` and keeps yielding even
values — after 3 iterations it has produced 3 elements and is still running
(the exit test compares against the odd maximum, which an even `low` never
reaches). With `low = -2^63` (the minimum int), `high = 0` and `step = -1`
the claim predicts the loop never exits on its own, but the very first
addition wraps to `2^63 - 1 ≥ high` and the loop stops after one element. -/
theorem range_termination_counterexample :
    (rangeLoop (2 ^ 63 - 2) (2 ^ 63 - 1) 2 3).length = 3 ∧
    rangeCount (2 ^ 63 - 2) (2 ^ 63 - 1) 2 = 1 ∧
    rangeLoop (-2 ^ 63) 0 (-1) 5 = [-2 ^ 63] := by
  refine ⟨?_, ?_, ?_⟩ <;> decide

/-- Claim C10 (amended): over Go's wrapping 64-bit integers, the guarantees
hold away from the int64 boundary. With `step ≥ 1`, provided the additions
cannot overflow before the exit test fires (`low ≥ -2^63` and
`high + step ≤ 2^63`), the output stabilizes at exactly
`rangeCount low high step = max 0 (ceil((high - low) / step))` elements once
the fuel reaches that count; with `step ≤ 0` and `low < high` (and `low` an
int64 value), the loop is still running after `fuel` iterations — having
yielded exactly `fuel` elements — as long as the additions have not
underflowed int64 (`low + fuel * step ≥ -2^63`). At the boundary neither
guarantee survives: see the counterexample. -/
theorem range_termination (low high step : Int) (fuel : Nat) :
    (1 ≤ step → -2 ^ 63 ≤ low → high + step ≤ 2 ^ 63 →
      rangeCount low high step ≤ fuel →
      rangeLoop low high step fuel = rangeList low high step ∧
      (rangeLoop low high step fuel).length = rangeCount low high step) ∧
    (step ≤ 0 → low < high → low < 2 ^ 63 →
      -2 ^ 63 ≤ low + (fuel : Int) * step →
      (rangeLoop low high step fuel).length = fuel) := by
  constructor
  · intro hstep hlow hhs hc
    have h := rangeLoop_eq_rangeList fuel low high step hstep hlow hhs hc
    refine ⟨h, ?_⟩
    rw [h]
    simp [rangeList]
  · intro hstep h hlow2 hH
    exact rangeLoop_length_nonpos_step fuel low high step hstep h hlow2 hH

/-- Witness for C10 at `(0, 5, 1)` for the terminating part and `(0, 5, 0)`
for the still-running part. -/
theorem range_termination_witness :
    (rangeLoop 0 5 1 5 = rangeList 0 5 1 ∧
      (rangeLoop 0 5 1 5).length = rangeCount 0 5 1) ∧
    (rangeLoop 0 5 0 7).length = 7 :=
  ⟨(range_termination 0 5 1 5).1 (by decide) (by decide) (by decide)
      (by decide),
    (range_termination 0 5 0 7).2 (by decide) (by decide) (by decide)
      (by decide)⟩

/-- Claim C1 fails on the code: `SplitWS` never flushes its buffer after the
loop, so a final run of non-separator bytes not followed by a separator is
dropped — `SplitWS "ab"` is `[]`, not `["ab"]`, losing the bytes `a` and `b`
entirely. The spec's own example, whose input ends in a separator, does hold. -/
theorem splitWS_drops_final_run :
    SplitWS ['a', 'b'] = [] ∧
      SplitWS "  a\tb\n c ".toList = [['a'], ['b'], ['c']] := by
  exact ⟨rfl, rfl⟩

/-- Claim C3 fails on the code: a final line holding exactly one
non-terminator byte is dropped, because the end-of-file branch reuses the
`len(lineBytes) > 1` test on a chunk that has no trailing terminator. For
file contents `"a\nb"` (bytes `[97, 10, 98]`) the code returns only
`[[97]]`, not `[[97], [98]]` as the claim requires; a final line of two
bytes is kept, so the loss is exactly the one-byte final line. -/
theorem readLinesBytes_drops_one_byte_final_line :
    ReadLinesBytes [97, 10, 98] = [[97]] ∧
      ReadLinesBytes [97, 10, 98, 98] = [[97], [98, 98]] := by
  exact ⟨rfl, rfl⟩

theorem sliceSeqLoop_filter_map {T E : Type} (p : T → Bool) (f : T → E) :
    ∀ (s : List T) (out : List E),
      sliceSeqLoop (fun st v => if p v then (st ++ [f v], true) else (st, true)) s out
        = out ++ (s.filter p).map f := by
  intro s
  induction s with
  | nil => intro out; simp [sliceSeqLoop]
  | cons v rest ih =>
    intro out
    by_cases hp : p v
    · simp [sliceSeqLoop, hp, ih]
    · simp [sliceSeqLoop, hp, ih]

theorem foldl_filter_step {T : Type} (p : T → Bool) :
    ∀ (s : List T) (out : List T),
      s.foldl (fun out item => if p item then out ++ [item] else out) out
        = out ++ s.filter p := by
  intro s
  induction s with
  | nil => intro out; simp
  | cons v rest ih =>
    intro out
    by_cases hp : p v
    · simp [hp, ih]
    · simp [hp, ih]

theorem foldl_map_step {T E : Type} (f : T → E) :
    ∀ (s : List T) (out : List E),
      s.foldl (fun out item => out ++ [f item]) out = out ++ s.map f := by
  intro s
  induction s with
  | nil => intro out; simp
  | cons v rest ih =>
    intro out
    simp [ih]

/-- Claim C4: the lazy and the eager pipelines agree — collecting
`Map(Filter(seq-of-s, p), f)` yields exactly `MapSlice(FilterSlice(s, p), f)`
for every slice `s`, predicate `p` and transform `f`; in particular
filtering `[1,2,3,4,5]` for even values then mapping `· * 10` yields
`[20, 40]` in both forms. -/
theorem lazy_eager_pipeline_equiv {T E : Type} (s : List T) (p : T → Bool)
    (f : T → E) :
    collectSeq (Map (Filter (sliceSeq s) p) f) = MapSlice (FilterSlice s p) f ∧
    collectSeq (Map (Filter (sliceSeq [(1 : Int), 2, 3, 4, 5])
        (fun n => n % 2 == 0)) (fun n => n * 10)) = [20, 40] ∧
    MapSlice (FilterSlice [(1 : Int), 2, 3, 4, 5] (fun n => n % 2 == 0))
        (fun n => n * 10) = [20, 40] := by
  refine ⟨?_, rfl, rfl⟩
  have hl : collectSeq (Map (Filter (sliceSeq s) p) f)
      = sliceSeqLoop (fun st v => if p v then (st ++ [f v], true) else (st, true)) s [] :=
    rfl
  have hr : MapSlice (FilterSlice s p) f = (s.filter p).map f := by
    unfold MapSlice FilterSlice
    rw [foldl_filter_step p s [], List.nil_append, foldl_map_step f (s.filter p) [],
      List.nil_append]
  rw [hl, hr, sliceSeqLoop_filter_map p f s [], List.nil_append]

/-- Witness for C4 at `s = [1,2,3,4,5]`, `p` = even, `f = · * 10`. -/
theorem lazy_eager_pipeline_equiv_witness :
    collectSeq (Map (Filter (sliceSeq [(1 : Int), 2, 3, 4, 5])
        (fun n => n % 2 == 0)) (fun n => n * 10))
      = MapSlice (FilterSlice [(1 : Int), 2, 3, 4, 5] (fun n => n % 2 == 0))
        (fun n => n * 10) :=
  (lazy_eager_pipeline_equiv [(1 : Int), 2, 3, 4, 5] (fun n => n % 2 == 0)
    (fun n => n * 10)).1

theorem maxIndexLoop_invariant {T : Type} [LinearOrder T] :
    ∀ (rest pre : List T) (maxV : T) (maxI : Nat),
      pre[maxI]? = some maxV →
      (∀ x ∈ pre, x ≤ maxV) →
      (∀ j, j < maxI → ∀ x, pre[j]? = some x → x < maxV) →
      ((pre ++ rest)[(maxIndexLoop rest maxV maxI pre.length).2]?
          = some (maxIndexLoop rest maxV maxI pre.length).1) ∧
      (∀ x ∈ pre ++ rest, x ≤ (maxIndexLoop rest maxV maxI pre.length).1) ∧
      (∀ j, j < (maxIndexLoop rest maxV maxI pre.length).2 → ∀ x,
        (pre ++ rest)[j]? = some x → x < (maxIndexLoop rest maxV maxI pre.length).1) := by
  intro rest
  induction rest with
  | nil =>
    intro pre maxV maxI h1 h2 h3
    simp only [maxIndexLoop, List.append_nil]
    exact ⟨h1, h2, h3⟩
  | cons v rest ih =>
    intro pre maxV maxI h1 h2 h3
    have hlen : (pre ++ [v]).length = pre.length + 1 := by simp
    have happ : (pre ++ [v]) ++ rest = pre ++ (v :: rest) := by simp
    simp only [maxIndexLoop]
    by_cases hv : maxV < v
    · rw [if_pos hv]
      have hpre' : (pre ++ [v])[pre.length]? = some v :=
        List.getElem?_concat_length pre v
      have hle : ∀ x ∈ pre ++ [v], x ≤ v := by
        intro x hx
        rcases List.mem_append.mp hx with hx | hx
        · exact le_of_lt (lt_of_le_of_lt (h2 x hx) hv)
        · rw [List.mem_singleton.mp hx]
      have hstrict : ∀ j, j < pre.length → ∀ x, (pre ++ [v])[j]? = some x → x < v := by
        intro j hj x hx
        rw [List.getElem?_append_left hj] at hx
        exact lt_of_le_of_lt (h2 x (List.getElem?_mem hx)) hv
      have hrec := ih (pre ++ [v]) v pre.length hpre' hle hstrict
      rw [hlen, happ] at hrec
      exact hrec
    · rw [if_neg hv]
      have hmaxIlt : maxI < pre.length := (List.getElem?_eq_some_iff.mp h1).1
      have h1' : (pre ++ [v])[maxI]? = some maxV := by
        rw [List.getElem?_append_left hmaxIlt]
        exact h1
      have hle : ∀ x ∈ pre ++ [v], x ≤ maxV := by
        intro x hx
        rcases List.mem_append.mp hx with hx | hx
        · exact h2 x hx
        · rw [List.mem_singleton.mp hx]
          exact le_of_not_lt hv
      have hstrict : ∀ j, j < maxI → ∀ x, (pre ++ [v])[j]? = some x → x < maxV := by
        intro j hj x hx
        rw [List.getElem?_append_left (lt_trans hj hmaxIlt)] at hx
        exact h3 j hj x hx
      have hrec := ih (pre ++ [v]) maxV maxI h1' hle hstrict
      rw [hlen, happ] at hrec
      exact hrec

/-- Claim C7: on a non-empty slice `MaxIndex` returns the maximum value and
the index of its first occurrence — the returned index holds the returned
value, every element is `≤` it, and every element strictly before the index
is strictly below it (ties are won by the earliest index, since only
strictly greater values advance the tracked maximum); the spec example
`MaxIndex [3,7,2,7,1] = (7, 1)` holds; and on the empty slice `MaxIndex`
panics. -/
theorem maxIndex_first_occurrence {T : Type} [LinearOrder T] (s : List T)
    (hs : s ≠ []) :
    (∃ m i, MaxIndex s = some (m, i) ∧ s[i]? = some m ∧ (∀ x ∈ s, x ≤ m) ∧
      (∀ j, j < i → ∀ x, s[j]? = some x → x < m)) ∧
    MaxIndex ([] : List T) = none ∧
    MaxIndex [(3 : Int), 7, 2, 7, 1] = some (7, 1) := by
  refine ⟨?_, rfl, by decide⟩
  cases s with
  | nil => exact absurd rfl hs
  | cons v rest =>
    have h := maxIndexLoop_invariant rest [v] v 0 (by simp) (by simp)
      (by intro j hj; omega)
    refine ⟨(maxIndexLoop rest v 0 1).1, (maxIndexLoop rest v 0 1).2, rfl, ?_, ?_, ?_⟩
    · simpa using h.1
    · simpa using h.2.1
    · simpa using h.2.2

/-- Witness for C7 at `s = [3, 7, 2, 7, 1]`. -/
theorem maxIndex_first_occurrence_witness :
    MaxIndex [(3 : Int), 7, 2, 7, 1] = some (7, 1) :=
  (maxIndex_first_occurrence [(3 : Int), 7, 2, 7, 1] (by decide)).2.2

theorem readLines_fold (scanned : List String) :
    ∀ acc, scanned.foldl
        (fun lines line => if line ≠ "" then lines ++ [line] else lines) acc
      = acc ++ scanned.filter (fun line => line ≠ "") := by
  induction scanned with
  | nil => intro acc; simp
  | cons l rest ih =>
    intro acc
    rw [List.foldl_cons]
    by_cases hl : l = ""
    · have hcond : ¬(l ≠ "") := by simp [hl]
      rw [if_neg hcond, ih acc, List.filter_cons_of_neg (by simp [hl])]
    · rw [if_pos hl, ih (acc ++ [l]), List.filter_cons_of_pos (by simp [hl])]
      simp

/-- Claim C9: every failure of `ReadLines` is a recoverable error value — an
open failure yields an open-phase error and a scan failure a distinct
read-phase error (the two constructors are never equal) — and on success the
result is exactly the non-empty scanned lines in file order. -/
theorem readLines_error_phases (e rerr : String) (scanned : List String) :
    ReadLines (.error e) = .error (.openErr ("os.Open failed: " ++ e)) ∧
    ReadLines (.ok (scanned, some rerr))
      = .error (.readErr ("error reading lines: " ++ rerr)) ∧
    ReadLines (.ok (scanned, none))
      = .ok (scanned.filter (fun line => line ≠ "")) ∧
    (∀ m m' : String, ReadLinesErr.openErr m ≠ ReadLinesErr.readErr m') := by
  refine ⟨rfl, rfl, ?_, ?_⟩
  · show Except.ok (scanned.foldl
        (fun lines line => if line ≠ "" then lines ++ [line] else lines) []) = _
    rw [readLines_fold scanned [], List.nil_append]
  · intro m m' h
    exact ReadLinesErr.noConfusion h

/-- Witness for C9 at concrete inputs. -/
theorem readLines_error_phases_witness :
    ReadLines (.error "no such file") = .error (.openErr "os.Open failed: no such file") ∧
    ReadLines (.ok (["a", "", "b"], some "disk fault"))
      = .error (.readErr "error reading lines: disk fault") ∧
    ReadLines (.ok (["a", "", "b"], none)) = .ok ["a", "b"] := by
  have h := readLines_error_phases "no such file" "disk fault" ["a", "", "b"]
  exact ⟨h.1, h.2.1, by rw [h.2.2.1]; rfl⟩

end vtools
